import Mathlib

/-!
Verification of the bpystubgen stub-synthesis core: a shallow embedding of
`bpystubgen/tasks.py` (Task tree construction, module merge, target paths)
together with the node-model operations specified for `bpystubgen/nodes.py`
(signature rendering and type localization), and theorems settling the spec
claims about them.

Conventions of the embedding:
* Python strings are Lean `String`s; single characters are `Char`.
* `str.islower()` on the first character is modelled by `Char.isLower`
  (ASCII lowercase; the documentation fragment names handled by the tool are
  ASCII identifiers).
* Filesystem paths are explicit: a source file is a directory (list of path
  components) plus a file name.  `sorted(src_dir.rglob(pattern))` becomes a
  merge sort by the lexicographic order on (directory, file name), which is
  how `pathlib` compares paths component-wise.
* Exceptions (`IndexError`, failed `assert`, `StopIteration`) become
  `Except`/sum results.
-/

namespace Bpy

/-! ## Character and string ordering

Boolean lexicographic comparisons, kept as plain structural recursion so
that every concrete instance reduces by `decide`/`rfl`. -/

/-- Strict order on characters by code point, as Python compares them. -/
def charLt (a b : Char) : Bool := decide (a.val.toNat < b.val.toNat)

/-- Lexicographic strict order on lists, parameterized by the element order. -/
def lexLt {α : Type} [BEq α] (lt : α → α → Bool) : List α → List α → Bool
  | _, [] => false
  | [], _ :: _ => true
  | a :: as, b :: bs => lt a b || (a == b && lexLt lt as bs)

/-- Strict lexicographic order on strings (Python's `str` comparison). -/
def strLt (a b : String) : Bool := lexLt charLt a.data b.data

theorem charLt_trans (a b c : Char) (h₁ : charLt a b = true) (h₂ : charLt b c = true) :
    charLt a c = true := by
  simp only [charLt, decide_eq_true_eq] at *
  exact lt_trans h₁ h₂

theorem charLt_asymm (a b : Char) (h : charLt a b = true) : charLt b a = false := by
  simp only [charLt, decide_eq_true_eq, decide_eq_false_iff_not] at *
  exact Nat.not_lt_of_lt h

theorem charLt_conn (a b : Char) (h₁ : charLt a b = false) (h₂ : charLt b a = false) :
    a = b := by
  simp only [charLt, decide_eq_false_iff_not, Nat.not_lt] at h₁ h₂
  exact Char.ext (UInt32.ext (Nat.le_antisymm h₂ h₁))

theorem lexLt_asymm {α : Type} [BEq α] [LawfulBEq α] (lt : α → α → Bool)
    (hA : ∀ a b, lt a b = true → lt b a = false) :
    ∀ x y : List α, lexLt lt x y = true → lexLt lt y x = false := by
  intro x
  induction x with
  | nil => intro y h; cases y <;> simp [lexLt] at h ⊢
  | cons a as ih =>
    intro y h
    cases y with
    | nil => simp [lexLt] at h
    | cons b bs =>
      simp only [lexLt, Bool.or_eq_true, Bool.and_eq_true, beq_iff_eq] at h
      simp only [lexLt, Bool.or_eq_false_iff, Bool.and_eq_false_iff]
      rcases h with h | ⟨rfl, h⟩
      · refine ⟨hA _ _ h, ?_⟩
        left
        simp only [beq_eq_false_iff_ne, ne_eq]
        intro hEq
        subst hEq
        rw [hA _ _ h] at h
        exact Bool.false_ne_true h
      · constructor
        · by_cases hba : lt a a = true
          · exact hA _ _ hba
          · exact Bool.eq_false_iff.mpr hba
        · right
          exact ih bs h

theorem lexLt_trans {α : Type} [BEq α] [LawfulBEq α] (lt : α → α → Bool)
    (hT : ∀ a b c, lt a b = true → lt b c = true → lt a c = true) :
    ∀ x y z : List α, lexLt lt x y = true → lexLt lt y z = true → lexLt lt x z = true := by
  intro x
  induction x with
  | nil =>
    intro y z h₁ h₂
    cases y with
    | nil => simp [lexLt] at h₁
    | cons b bs =>
      cases z with
      | nil => simp [lexLt] at h₂
      | cons c cs => simp [lexLt]
  | cons a as ih =>
    intro y z h₁ h₂
    cases y with
    | nil => simp [lexLt] at h₁
    | cons b bs =>
      cases z with
      | nil => simp [lexLt] at h₂
      | cons c cs =>
        simp only [lexLt, Bool.or_eq_true, Bool.and_eq_true, beq_iff_eq] at h₁ h₂ ⊢
        rcases h₁ with h₁ | ⟨rfl, h₁⟩
        · rcases h₂ with h₂ | ⟨rfl, h₂⟩
          · exact Or.inl (hT _ _ _ h₁ h₂)
          · exact Or.inl h₁
        · rcases h₂ with h₂ | ⟨rfl, h₂⟩
          · exact Or.inl h₂
          · exact Or.inr ⟨rfl, ih _ _ h₁ h₂⟩

theorem lexLt_conn {α : Type} [BEq α] [LawfulBEq α] (lt : α → α → Bool)
    (hC : ∀ a b, lt a b = false → lt b a = false → a = b) :
    ∀ x y : List α, lexLt lt x y = false → lexLt lt y x = false → x = y := by
  intro x
  induction x with
  | nil =>
    intro y h₁ _
    cases y with
    | nil => rfl
    | cons b bs => simp [lexLt] at h₁
  | cons a as ih =>
    intro y h₁ h₂
    cases y with
    | nil => simp [lexLt] at h₂
    | cons b bs =>
      simp only [lexLt, Bool.or_eq_false_iff, Bool.and_eq_false_iff] at h₁ h₂
      obtain ⟨hab, h₁'⟩ := h₁
      obtain ⟨hba, h₂'⟩ := h₂
      have hEq : a = b := hC _ _ hab hba
      subst hEq
      rcases h₁' with h₁' | h₁'
      · simp at h₁'
      · rcases h₂' with h₂' | h₂'
        · simp at h₂'
        · rw [ih _ h₁' h₂']

theorem strLt_trans (a b c : String) (h₁ : strLt a b = true) (h₂ : strLt b c = true) :
    strLt a c = true :=
  lexLt_trans charLt charLt_trans a.data b.data c.data h₁ h₂

theorem strLt_asymm (a b : String) (h : strLt a b = true) : strLt b a = false :=
  lexLt_asymm charLt charLt_asymm a.data b.data h

theorem strLt_conn (a b : String) (h₁ : strLt a b = false) (h₂ : strLt b a = false) :
    a = b := by
  have h := lexLt_conn charLt charLt_conn a.data b.data h₁ h₂
  cases a; cases b
  exact congrArg String.mk h

/-! ## Source files and dotted-segment derivation

`Task.create` walks `sorted(src_dir.rglob(pattern))` and derives each file's
dotted segment path as `file.name.split(".")[:-1]` (tasks.py line 43). -/

/-- A discovered fragment file: directory components (relative to the source
root) and the file's own name. Only the name contributes segments; the
directory matters for the sort order of `rglob` results. -/
@[ext]
structure SrcFile where
  dir : List String
  fname : String
deriving DecidableEq, Repr

/-- Python's `str.split(sep)` for a single-character separator, over the
character list of the string: splitting never drops empty groups. -/
def splitCh (sep : Char) : List Char → List (List Char)
  | [] => [[]]
  | a :: as =>
    if a == sep then [] :: splitCh sep as
    else
      match splitCh sep as with
      | [] => [[a]]
      | g :: gs => (a :: g) :: gs

/-- Segment path of a file: `file.name.split(".")[:-1]` (tasks.py line 43). -/
def segments (f : SrcFile) : List String :=
  (((splitCh '.' f.fname.data).map String.mk)).dropLast

/-- Non-strict order on files: lexicographic on (directory, name), matching
how `pathlib.Path` instances compare in `sorted(...)`. -/
def fileLe (x y : SrcFile) : Bool :=
  lexLt strLt x.dir y.dir || (x.dir == y.dir && (x.fname == y.fname || strLt x.fname y.fname))

theorem fileLe_total (x y : SrcFile) : (fileLe x y || fileLe y x) = true := by
  simp only [fileLe, Bool.or_eq_true, Bool.and_eq_true, beq_iff_eq]
  rcases hd : lexLt strLt x.dir y.dir with _ | _
  · rcases hd' : lexLt strLt y.dir x.dir with _ | _
    · have hdir : x.dir = y.dir := lexLt_conn strLt strLt_conn x.dir y.dir hd hd'
      rcases hf : strLt x.fname y.fname with _ | _
      · rcases hf' : strLt y.fname x.fname with _ | _
        · have : x.fname = y.fname := strLt_conn _ _ hf hf'
          exact Or.inl (Or.inr ⟨hdir, Or.inl this⟩)
        · exact Or.inr (Or.inr ⟨hdir.symm, Or.inr rfl⟩)
      · exact Or.inl (Or.inr ⟨hdir, Or.inr rfl⟩)
    · exact Or.inr (Or.inl rfl)
  · exact Or.inl (Or.inl rfl)

theorem fileLe_trans (x y z : SrcFile) (h₁ : fileLe x y = true) (h₂ : fileLe y z = true) :
    fileLe x z = true := by
  simp only [fileLe, Bool.or_eq_true, Bool.and_eq_true, beq_iff_eq] at h₁ h₂ ⊢
  rcases h₁ with h₁ | ⟨hd₁, h₁⟩
  · rcases h₂ with h₂ | ⟨hd₂, _⟩
    · exact Or.inl (lexLt_trans strLt strLt_trans _ _ _ h₁ h₂)
    · exact Or.inl (hd₂ ▸ h₁)
  · rcases h₂ with h₂ | ⟨hd₂, h₂⟩
    · exact Or.inl (hd₁ ▸ h₂)
    · refine Or.inr ⟨hd₁.trans hd₂, ?_⟩
      rcases h₁ with h₁ | h₁
      · exact h₁ ▸ h₂
      · rcases h₂ with h₂ | h₂
        · exact Or.inr (h₂ ▸ h₁)
        · exact Or.inr (strLt_trans _ _ _ h₁ h₂)

theorem lexLt_irrefl {α : Type} [BEq α] [LawfulBEq α] (lt : α → α → Bool)
    (hA : ∀ a b, lt a b = true → lt b a = false) (x : List α) : lexLt lt x x = false := by
  cases h : lexLt lt x x with
  | false => rfl
  | true =>
    have hxx := lexLt_asymm lt hA x x h
    rw [h] at hxx
    exact hxx

theorem fileLe_antisymm (x y : SrcFile) (h₁ : fileLe x y = true) (h₂ : fileLe y x = true) :
    x = y := by
  simp only [fileLe, Bool.or_eq_true, Bool.and_eq_true, beq_iff_eq] at h₁ h₂
  rcases h₁ with h₁ | ⟨hd₁, h₁⟩
  · rcases h₂ with h₂ | ⟨hd₂, _⟩
    · rw [lexLt_asymm strLt strLt_asymm _ _ h₁] at h₂
      exact absurd h₂ Bool.false_ne_true
    · rw [hd₂] at h₁
      rw [lexLt_irrefl strLt strLt_asymm] at h₁
      exact absurd h₁ Bool.false_ne_true
  · rcases h₂ with h₂ | ⟨_, h₂⟩
    · rw [hd₁] at h₂
      rw [lexLt_irrefl strLt strLt_asymm] at h₂
      exact absurd h₂ Bool.false_ne_true
    · rcases h₁ with h₁ | h₁
      · exact SrcFile.ext hd₁ h₁
      · rcases h₂ with h₂ | h₂
        · exact SrcFile.ext hd₁ h₂.symm
        · rw [strLt_asymm _ _ h₁] at h₂
          exact absurd h₂ Bool.false_ne_true

/-- Relational form of `fileLe`, for sorting. -/
def FileLeR (x y : SrcFile) : Prop := fileLe x y = true

instance : DecidableRel FileLeR := fun x y => inferInstanceAs (Decidable (fileLe x y = true))

instance : IsAntisymm SrcFile FileLeR := ⟨fun x y h₁ h₂ => fileLe_antisymm x y h₁ h₂⟩

instance : IsTotal SrcFile FileLeR :=
  ⟨fun x y => by
    have h := fileLe_total x y
    rcases Bool.or_eq_true_iff.mp h with h' | h'
    · exact Or.inl h'
    · exact Or.inr h'⟩

instance : IsTrans SrcFile FileLeR := ⟨fun x y z h₁ h₂ => fileLe_trans x y z h₁ h₂⟩

/-- The sorted traversal order of discovered files (tasks.py line 42).
Python's `sorted` is modelled by insertion sort: `fileLe` is an
antisymmetric total order on paths, so every correct sort produces the
same list. -/
def sortFiles (files : List SrcFile) : List SrcFile := files.insertionSort FileLeR

theorem sortFiles_perm (files : List SrcFile) : (sortFiles files).Perm files :=
  List.perm_insertionSort FileLeR files

theorem sortFiles_sorted (files : List SrcFile) :
    List.Sorted FileLeR (sortFiles files) :=
  List.sorted_insertionSort FileLeR files

/-- Sorting is a function of the multiset of inputs: any two enumeration
orders of the same files sort identically. -/
theorem sortFiles_eq_of_perm (l₁ l₂ : List SrcFile) (h : l₁.Perm l₂) :
    sortFiles l₁ = sortFiles l₂ :=
  List.eq_of_perm_of_sorted
    (((sortFiles_perm l₁).trans h).trans (sortFiles_perm l₂).symm)
    (sortFiles_sorted l₁) (sortFiles_sorted l₂)

/-! ## The Task tree (tasks.py lines 17-104)

A `Task` node carries the fields the Python constructor establishes:
`name`, the precomputed `full_name`, the variant (plain root `Task`,
`ModuleTask`, or `ClassTask`), the optional `source` file, and the ordered
children mapping (Python dicts preserve insertion order; an existing key
keeps its position, a new key is appended). -/

/-- Which concrete class a Task was constructed as. The tree root built by
`Task.create` is a plain `Task`; every other node is a `ModuleTask` or a
`ClassTask` (tasks.py lines 21, 32-35). -/
inductive TaskVariant where
  | root
  | moduleTask
  | classTask
deriving DecidableEq, Repr

/-- A namespace node. Children are kept in insertion order, mirroring the
`_children` dict. -/
inductive Task where
  | mk (name : String) (fullName : String) (variant : TaskVariant)
       (source : Option SrcFile) (children : List Task)

/-- Accessor for the `name` field. -/
def Task.name : Task → String
  | .mk n _ _ _ _ => n

/-- Accessor for the `full_name` field (computed once at construction,
tasks.py lines 58-63). -/
def Task.fullName : Task → String
  | .mk _ fn _ _ _ => fn

/-- Accessor for the variant tag. -/
def Task.variant : Task → TaskVariant
  | .mk _ _ v _ _ => v

/-- Accessor for the `source` field. -/
def Task.source : Task → Option SrcFile
  | .mk _ _ _ s _ => s

/-- Accessor for the `_children` mapping, as an insertion-ordered list. -/
def Task.children : Task → List Task
  | .mk _ _ _ _ cs => cs

/-- Replace the `source` field (`task.source = file`, tasks.py line 46). -/
def Task.withSource (s : Option SrcFile) : Task → Task
  | .mk n fn v _ cs => .mk n fn v s cs

/-- Replace the children list. -/
def Task.withChildren (cs : List Task) : Task → Task
  | .mk n fn v s _ => .mk n fn v s cs

/-- Store a child under its name in the `_children` dict: an existing key
keeps its position and gets the new value, a fresh key is appended. -/
def setChild : List Task → Task → List Task
  | [], c => [c]
  | t :: ts, c => if t.name == c.name then c :: ts else t :: setChild ts c

/-- Dict lookup `context[name]` / membership `name in context.keys()`. -/
def findChild (cs : List Task) (n : String) : Option Task :=
  cs.find? (fun c => c.name == n)

/-- Errors that abort `Task.create`: `name[0]` on an empty segment raises
`IndexError` (tasks.py line 32), and an empty segment list fails the
`assert count > 0` (tasks.py line 26). -/
inductive BuildErr where
  | indexErr
  | assertErr
deriving DecidableEq, Repr

/-- The `full_name` a child constructed under `context` receives: the
non-empty ancestor names joined with dots, then its own name (tasks.py
lines 58-63; the plain root has the empty name, which `filter(any, ...)`
drops). -/
def childFullName (context : Task) (n : String) : String :=
  if context.fullName == "" then n else context.fullName ++ "." ++ n

/-- Lines 30-35 of tasks.py: the child for segment `n` under `context` —
the existing child of that name when the dict has one, otherwise a freshly
constructed `ModuleTask` (first character lowercase) or `ClassTask` (any
other first character). Accessing `name[0]` of an empty segment raises
`IndexError`. -/
def childFor (context : Task) (n : String) : Except BuildErr Task :=
  match findChild context.children n with
  | some c => .ok c
  | none =>
    match n.data with
    | [] => .error .indexErr
    | ch :: _ =>
      if ch.isLower then
        .ok (.mk n (childFullName context n) .moduleTask none [])
      else
        .ok (.mk n (childFullName context n) .classTask none [])

/-- The nested `resolve` of `Task.create` (tasks.py lines 23-40) combined
with the `task.source = file` assignment its caller performs on the
returned leaf (line 46). Descends along the segment path from `context`,
reusing or constructing children via `childFor`; the leaf's `source` is
set to `src`. Returns the updated `context`; exceptions become
`Except.error`. -/
def resolve (src : SrcFile) : List String → Task → Except BuildErr Task
  | [], _ => .error .assertErr
  | n :: rest, context =>
    match childFor context n with
    | .error e => .error e
    | .ok child =>
      match rest with
      | [] => .ok (context.withChildren (setChild context.children (child.withSource (some src))))
      | _ :: _ =>
        match resolve src rest child with
        | .error e => .error e
        | .ok child' => .ok (context.withChildren (setChild context.children child'))

/-- Check a predicate on every task of a list of trees, recursively:
`allTasksB p cs` holds when every task in the forest `cs` (each listed
task and all of its descendants) satisfies `p`. -/
def allTasksB (p : Task → Bool) : List Task → Bool
  | [] => true
  | .mk n fn v s gs :: cs => p (.mk n fn v s gs) && allTasksB p gs && allTasksB p cs

/-- Dict lookup along a path of names from a task: `lookupPath [a, b] t`
is the grandchild `t[a][b]` when present. -/
def lookupPath : List String → Task → Option Task
  | [], t => some t
  | n :: rest, t =>
    match findChild t.children n with
    | some c => lookupPath rest c
    | none => none

/-- The `source` of the task reached by a path of names, when both exist. -/
def sourceAt (p : List String) (t : Task) : Option SrcFile :=
  match lookupPath p t with
  | some u => u.source
  | none => none

/-- The variant of the task reached by a path of names, when it exists. -/
def variantAt (p : List String) (t : Task) : Option TaskVariant :=
  match lookupPath p t with
  | some u => some u.variant
  | none => none

/-- The empty root `Task()` (tasks.py line 21). -/
def rootTask : Task := .mk "" "" .root none []

/-- The `for file in ...` loop body of `Task.create` folded over a file
list (tasks.py lines 42-46); an exception aborts the whole build. -/
def createFrom : List SrcFile → Task → Except BuildErr Task
  | [], t => .ok t
  | f :: fs, t =>
    match resolve f (segments f) t with
    | .error e => .error e
    | .ok t' => createFrom fs t'

/-- `Task.create(src_dir, pattern)` (tasks.py lines 19-48), applied to the
files the glob discovered, in any enumeration order: they are sorted, then
indexed into a tree rooted at a fresh plain `Task`. -/
def create (files : List SrcFile) : Except BuildErr Task :=
  createFrom (sortFiles files) rootTask

/-! ## Basic facts about the Task tree operations -/

theorem Task.name_mk (n fn : String) (v : TaskVariant) (s : Option SrcFile) (cs : List Task) :
    (Task.mk n fn v s cs).name = n := rfl

theorem Task.children_mk (n fn : String) (v : TaskVariant) (s : Option SrcFile) (cs : List Task) :
    (Task.mk n fn v s cs).children = cs := rfl

theorem Task.withChildren_mk (n fn : String) (v : TaskVariant) (s : Option SrcFile)
    (cs cs' : List Task) : (Task.mk n fn v s cs).withChildren cs' = .mk n fn v s cs' := rfl

theorem Task.withChildren_name (t : Task) (cs : List Task) :
    (t.withChildren cs).name = t.name := by cases t; rfl

theorem Task.withChildren_fullName (t : Task) (cs : List Task) :
    (t.withChildren cs).fullName = t.fullName := by cases t; rfl

theorem Task.withChildren_variant (t : Task) (cs : List Task) :
    (t.withChildren cs).variant = t.variant := by cases t; rfl

theorem Task.withChildren_source (t : Task) (cs : List Task) :
    (t.withChildren cs).source = t.source := by cases t; rfl

theorem Task.withChildren_children (t : Task) (cs : List Task) :
    (t.withChildren cs).children = cs := by cases t; rfl

theorem Task.withSource_name (t : Task) (s : Option SrcFile) :
    (t.withSource s).name = t.name := by cases t; rfl

theorem Task.withSource_fullName (t : Task) (s : Option SrcFile) :
    (t.withSource s).fullName = t.fullName := by cases t; rfl

theorem Task.withSource_variant (t : Task) (s : Option SrcFile) :
    (t.withSource s).variant = t.variant := by cases t; rfl

theorem Task.withSource_source (t : Task) (s : Option SrcFile) :
    (t.withSource s).source = s := by cases t; rfl

theorem Task.withSource_children (t : Task) (s : Option SrcFile) :
    (t.withSource s).children = t.children := by cases t; rfl

theorem allTasksB_nil (p : Task → Bool) : allTasksB p [] = true := by
  simp [allTasksB]

theorem allTasksB_cons (p : Task → Bool) (c : Task) (cs : List Task) :
    allTasksB p (c :: cs) = (p c && allTasksB p c.children && allTasksB p cs) := by
  cases c
  simp only [allTasksB, Task.children_mk]

theorem findChild_some_name (cs : List Task) (n : String) (c : Task)
    (h : findChild cs n = some c) : c.name = n := by
  have := List.find?_some h
  simpa using this

theorem findChild_mem (cs : List Task) (n : String) (c : Task)
    (h : findChild cs n = some c) : c ∈ cs :=
  List.mem_of_find?_eq_some h

theorem allTasksB_of_find (p : Task → Bool) (cs : List Task) (n : String) (c : Task)
    (hall : allTasksB p cs = true) (h : findChild cs n = some c) :
    p c = true ∧ allTasksB p c.children = true := by
  induction cs with
  | nil => simp [findChild] at h
  | cons d ds ih =>
    rw [allTasksB_cons] at hall
    simp only [Bool.and_eq_true] at hall
    obtain ⟨⟨hd, hdc⟩, hds⟩ := hall
    rw [findChild, List.find?_cons] at h
    by_cases hn : (d.name == n) = true
    · rw [hn] at h
      cases h
      exact ⟨hd, hdc⟩
    · rw [Bool.eq_false_iff.mpr hn] at h
      exact ih hds h

theorem findChild_setChild_self (cs : List Task) (c : Task) (n : String) (hn : c.name = n) :
    findChild (setChild cs c) n = some c := by
  induction cs with
  | nil => simp [setChild, findChild, hn]
  | cons d ds ih =>
    rw [setChild]
    by_cases hd : (d.name == c.name) = true
    · have hdc : d.name = c.name := by simpa using hd
      rw [if_pos hd]
      simp [findChild, List.find?_cons, hdc, hn]
    · have hdc : ¬ d.name = c.name := by simpa using hd
      rw [if_neg hd]
      simp only [findChild, List.find?_cons]
      have hdn : (d.name == n) = false := by
        subst hn
        simpa using hdc
      rw [hdn]
      exact ih

theorem findChild_setChild_other (cs : List Task) (c : Task) (m : String)
    (hm : c.name ≠ m) : findChild (setChild cs c) m = findChild cs m := by
  have hcm : (c.name == m) = false := by simpa using hm
  induction cs with
  | nil =>
    simp only [setChild, findChild, List.find?_cons, List.find?_nil]
    simp [hcm]
  | cons d ds ih =>
    rw [setChild]
    by_cases hd : (d.name == c.name) = true
    · have hdc : d.name = c.name := by simpa using hd
      have hdm : (d.name == m) = false := by
        simp only [beq_eq_false_iff_ne, ne_eq, hdc]
        exact hm
      rw [if_pos hd]
      simp only [findChild, List.find?_cons]
      simp [hcm, hdm]
    · rw [if_neg hd]
      simp only [findChild, List.find?_cons]
      by_cases hdm : (d.name == m) = true
      · simp [hdm]
      · simp only [Bool.eq_false_iff.mpr hdm]
        exact ih

theorem allTasksB_setChild (p : Task → Bool) (cs : List Task) (c : Task)
    (hall : allTasksB p cs = true) (hc : p c = true) (hcc : allTasksB p c.children = true) :
    allTasksB p (setChild cs c) = true := by
  induction cs with
  | nil => simp [setChild, allTasksB_cons, allTasksB_nil, hc, hcc]
  | cons d ds ih =>
    rw [allTasksB_cons] at hall
    simp only [Bool.and_eq_true] at hall
    obtain ⟨⟨hd, hdc⟩, hds⟩ := hall
    rw [setChild]
    by_cases hdn : (d.name == c.name) = true
    · rw [if_pos hdn, allTasksB_cons]
      simp [hc, hcc, hds]
    · rw [if_neg hdn, allTasksB_cons]
      simp [hd, hdc, ih hds]

/-! ## Structure of resolve results -/

theorem Task.fullName_mk (n fn : String) (v : TaskVariant) (so : Option SrcFile) (cs : List Task) :
    (Task.mk n fn v so cs).fullName = fn := rfl

theorem Task.variant_mk (n fn : String) (v : TaskVariant) (so : Option SrcFile) (cs : List Task) :
    (Task.mk n fn v so cs).variant = v := rfl

theorem Task.source_mk (n fn : String) (v : TaskVariant) (so : Option SrcFile) (cs : List Task) :
    (Task.mk n fn v so cs).source = so := rfl

theorem childFor_ok (ctx : Task) (n : String) (c : Task) (h : childFor ctx n = .ok c) :
    findChild ctx.children n = some c ∨
      (findChild ctx.children n = none ∧ ∃ ch tl, n.data = ch :: tl ∧
        c = Task.mk n (childFullName ctx n)
          (if ch.isLower then .moduleTask else .classTask) none []) := by
  rw [childFor] at h
  split at h
  · cases h
    exact Or.inl (by assumption)
  · rename_i hf
    split at h
    · exact absurd h (by simp)
    · rename_i ch tl hd
      split at h
      · rename_i hl
        cases h
        exact Or.inr ⟨hf, ch, tl, hd, by rw [if_pos hl]⟩
      · rename_i hl
        cases h
        exact Or.inr ⟨hf, ch, tl, hd, by rw [if_neg hl]⟩

theorem childFor_ok_name (ctx : Task) (n : String) (c : Task) (h : childFor ctx n = .ok c) :
    c.name = n := by
  rcases childFor_ok ctx n c h with h' | ⟨_, _, _, _, rfl⟩
  · exact findChild_some_name _ _ _ h'
  · rfl

theorem resolve_ok_shape (src : SrcFile) (p : List String) (ctx ctx' : Task)
    (h : resolve src p ctx = .ok ctx') : ∃ cs', ctx' = ctx.withChildren cs' := by
  cases p with
  | nil => exact absurd h (by simp [resolve])
  | cons n rest =>
    rw [resolve] at h
    split at h
    · exact absurd h (by simp)
    · split at h
      · cases h
        exact ⟨_, rfl⟩
      · split at h
        · exact absurd h (by simp)
        · cases h
          exact ⟨_, rfl⟩

theorem resolve_ok_fields (src : SrcFile) (p : List String) (ctx ctx' : Task)
    (h : resolve src p ctx = .ok ctx') :
    ctx'.name = ctx.name ∧ ctx'.fullName = ctx.fullName ∧ ctx'.variant = ctx.variant ∧
      ctx'.source = ctx.source := by
  obtain ⟨cs', rfl⟩ := resolve_ok_shape src p ctx ctx' h
  exact ⟨Task.withChildren_name _ _, Task.withChildren_fullName _ _,
    Task.withChildren_variant _ _, Task.withChildren_source _ _⟩

theorem resolve_cons_nil (src : SrcFile) (n : String) (ctx : Task) :
    resolve src [n] ctx =
      (match childFor ctx n with
       | .error e => .error e
       | .ok child =>
         .ok (ctx.withChildren (setChild ctx.children (child.withSource (some src))))) := by
  rw [resolve]

theorem resolve_cons_cons (src : SrcFile) (n r : String) (rs : List String) (ctx : Task) :
    resolve src (n :: r :: rs) ctx =
      (match childFor ctx n with
       | .error e => .error e
       | .ok child =>
         match resolve src (r :: rs) child with
         | .error e => .error e
         | .ok child' => .ok (ctx.withChildren (setChild ctx.children child'))) := by
  rw [resolve]

/-! ## Claim C1 invariant: variant is determined by the first character -/

/-- The spec's casing rule for a task: the name is non-empty, and the
variant is `ModuleTask` exactly when the first character is lowercase,
`ClassTask` otherwise. -/
def variantNameOkB (t : Task) : Bool :=
  match t.name.data with
  | [] => false
  | ch :: _ => t.variant == (if ch.isLower then TaskVariant.moduleTask else .classTask)

theorem variantNameOkB_withSource (t : Task) (s : Option SrcFile) :
    variantNameOkB (t.withSource s) = variantNameOkB t := by
  cases t; rfl

theorem variantNameOkB_withChildren (t : Task) (cs : List Task) :
    variantNameOkB (t.withChildren cs) = variantNameOkB t := by
  cases t; rfl

theorem resolve_preserves_variantOk (src : SrcFile) (p : List String) :
    ∀ ctx ctx' : Task, resolve src p ctx = .ok ctx' →
      allTasksB variantNameOkB ctx.children = true →
      allTasksB variantNameOkB ctx'.children = true := by
  induction p with
  | nil => intro ctx ctx' h _; exact absurd h (by simp [resolve])
  | cons n rest ih =>
    intro ctx ctx' h hall
    rw [resolve] at h
    split at h
    · exact absurd h (by simp)
    · rename_i child hc
      have hchild : variantNameOkB child = true ∧ allTasksB variantNameOkB child.children = true := by
        rcases childFor_ok ctx n child hc with hfound | ⟨_, ch, tl, hdata, rfl⟩
        · exact allTasksB_of_find _ _ _ _ hall hfound
        · constructor
          · simp [variantNameOkB, Task.name_mk, Task.variant_mk, hdata]
          · simp [Task.children_mk, allTasksB_nil]
      split at h
      · cases h
        rw [Task.withChildren_children]
        refine allTasksB_setChild _ _ _ hall ?_ ?_
        · rw [variantNameOkB_withSource]
          exact hchild.1
        · rw [Task.withSource_children]
          exact hchild.2
      · split at h
        · exact absurd h (by simp)
        · rename_i child' hr
          cases h
          rw [Task.withChildren_children]
          obtain ⟨cs'', hshape⟩ := resolve_ok_shape src _ child child' hr
          refine allTasksB_setChild _ _ _ hall ?_ ?_
          · rw [hshape, variantNameOkB_withChildren]
            exact hchild.1
          · exact ih child child' hr hchild.2

theorem createFrom_preserves_variantOk :
    ∀ (fs : List SrcFile) (t t' : Task), createFrom fs t = .ok t' →
      allTasksB variantNameOkB t.children = true →
      allTasksB variantNameOkB t'.children = true := by
  intro fs
  induction fs with
  | nil =>
    intro t t' h hall
    cases h
    exact hall
  | cons f fs ih =>
    intro t t' h hall
    rw [createFrom] at h
    split at h
    · exact absurd h (by simp)
    · rename_i t₁ hres
      exact ih t₁ t' h (resolve_preserves_variantOk f (segments f) t t₁ hres hall)

/-! ## Variant stability at existing paths -/

theorem variantAt_nil (t : Task) : variantAt [] t = some t.variant := rfl

theorem variantAt_cons (m : String) (qs : List String) (t : Task) :
    variantAt (m :: qs) t =
      (match findChild t.children m with
       | some c => variantAt qs c
       | none => none) := by
  rcases h : findChild t.children m with _ | c <;> simp [variantAt, lookupPath, h]

theorem variantAt_withSource (qs : List String) (t : Task) (s : Option SrcFile) :
    variantAt qs (t.withSource s) = variantAt qs t := by
  cases qs with
  | nil => rw [variantAt_nil, variantAt_nil, Task.withSource_variant]
  | cons m ms => rw [variantAt_cons, variantAt_cons, Task.withSource_children]

/-- Processing one more file never changes the variant of any task already
present in the tree: `resolve` only reuses existing nodes or adds new ones. -/
theorem resolve_preserves_variantAt (src : SrcFile) (p : List String) :
    ∀ (ctx ctx' : Task) (q : List String) (v : TaskVariant),
      resolve src p ctx = .ok ctx' → variantAt q ctx = some v → variantAt q ctx' = some v := by
  induction p with
  | nil => intro ctx ctx' q v h _; exact absurd h (by simp [resolve])
  | cons n rest ih =>
    intro ctx ctx' q v h hq
    rw [resolve] at h
    split at h
    · exact absurd h (by simp)
    · rename_i child hc
      have hname : child.name = n := childFor_ok_name ctx n child hc
      cases q with
      | nil =>
        rw [variantAt_nil] at hq
        obtain ⟨cs', rfl⟩ := resolve_ok_shape src (n :: rest) ctx ctx'
          (by rw [resolve, hc]; exact h)
        rw [variantAt_nil, Task.withChildren_variant]
        exact hq
      | cons m qs =>
        rw [variantAt_cons] at hq
        rcases hfm : findChild ctx.children m with _ | c
        · rw [hfm] at hq
          exact absurd hq (by simp)
        · rw [hfm] at hq
          by_cases hmn : m = n
          · subst hmn
            have hchild : child = c := by
              rw [childFor, hfm] at hc
              cases hc
              rfl
            subst hchild
            split at h
            · cases h
              rw [variantAt_cons, Task.withChildren_children,
                findChild_setChild_self _ _ _ (by rw [Task.withSource_name, hname])]
              show variantAt qs (Task.withSource (some src) child) = some v
              rw [variantAt_withSource]
              exact hq
            · split at h
              · exact absurd h (by simp)
              · rename_i child' hr
                cases h
                have hname' : child'.name = m :=
                  ((resolve_ok_fields src _ _ _ hr).1).trans hname
                rw [variantAt_cons, Task.withChildren_children,
                  findChild_setChild_self _ _ _ hname']
                exact ih child child' qs v hr hq
          · have hother : ∀ X : Task, X.name = n →
                findChild (setChild ctx.children X) m = findChild ctx.children m := by
              intro X hX
              exact findChild_setChild_other _ _ _ (by rw [hX]; exact fun hh => hmn hh.symm)
            split at h
            · cases h
              rw [variantAt_cons, Task.withChildren_children,
                hother _ (by rw [Task.withSource_name, hname]), hfm]
              exact hq
            · split at h
              · exact absurd h (by simp)
              · rename_i child' hr
                cases h
                rw [variantAt_cons, Task.withChildren_children,
                  hother _ (((resolve_ok_fields src _ _ _ hr).1).trans hname), hfm]
                exact hq

theorem createFrom_preserves_variantAt :
    ∀ (fs : List SrcFile) (t t' : Task) (q : List String) (v : TaskVariant),
      createFrom fs t = .ok t' → variantAt q t = some v → variantAt q t' = some v := by
  intro fs
  induction fs with
  | nil =>
    intro t t' q v h hq
    cases h
    exact hq
  | cons f fs ih =>
    intro t t' q v h hq
    rw [createFrom] at h
    split at h
    · exact absurd h (by simp)
    · rename_i t₁ hres
      exact ih t₁ t' q v h (resolve_preserves_variantAt f (segments f) t t₁ q v hres hq)

/-! ## Claim C7 invariant: sibling names are unique -/

/-- No two tasks of the list share a name. -/
def namesNodupB : List Task → Bool
  | [] => true
  | c :: cs => !(cs.any (fun d => d.name == c.name)) && namesNodupB cs

/-- Sibling-name uniqueness at one node. -/
def nodupChildrenB (t : Task) : Bool := namesNodupB t.children

/-- Sibling-name uniqueness everywhere in the tree rooted at `t`. -/
def nodupTreeB (t : Task) : Bool := nodupChildrenB t && allTasksB nodupChildrenB t.children

theorem setChild_mem (cs : List Task) (c x : Task) (h : x ∈ setChild cs c) :
    x ∈ cs ∨ x = c := by
  induction cs with
  | nil =>
    rw [setChild] at h
    rcases List.mem_singleton.mp h with rfl
    exact Or.inr rfl
  | cons d ds ih =>
    rw [setChild] at h
    by_cases hd : (d.name == c.name) = true
    · rw [if_pos hd] at h
      rcases List.mem_cons.mp h with rfl | h'
      · exact Or.inr rfl
      · exact Or.inl (List.mem_cons_of_mem _ h')
    · rw [if_neg hd] at h
      rcases List.mem_cons.mp h with rfl | h'
      · exact Or.inl (List.mem_cons_self _ _)
      · rcases ih h' with h'' | h''
        · exact Or.inl (List.mem_cons_of_mem _ h'')
        · exact Or.inr h''

theorem namesNodupB_setChild (cs : List Task) (c : Task) (h : namesNodupB cs = true) :
    namesNodupB (setChild cs c) = true := by
  induction cs with
  | nil => simp [setChild, namesNodupB]
  | cons d ds ih =>
    rw [namesNodupB, Bool.and_eq_true] at h
    obtain ⟨hd, hds⟩ := h
    rw [Bool.not_eq_true', List.any_eq_false] at hd
    rw [setChild]
    by_cases hdc : (d.name == c.name) = true
    · have hdc' : d.name = c.name := by simpa using hdc
      rw [if_pos hdc, namesNodupB, Bool.and_eq_true]
      refine ⟨?_, hds⟩
      rw [Bool.not_eq_true', List.any_eq_false]
      intro x hx
      have hx' := hd x hx
      rw [← hdc']
      exact hx'
    · rw [if_neg hdc, namesNodupB, Bool.and_eq_true]
      refine ⟨?_, ih hds⟩
      rw [Bool.not_eq_true', List.any_eq_false]
      intro x hx
      rcases setChild_mem ds c x hx with hx' | rfl
      · exact hd x hx'
      · intro hcd
        have hcd2 := beq_iff_eq.mp hcd
        exact hdc (by simp [hcd2])

theorem resolve_preserves_nodup (src : SrcFile) (p : List String) :
    ∀ ctx ctx' : Task, resolve src p ctx = .ok ctx' →
      namesNodupB ctx.children = true →
      allTasksB nodupChildrenB ctx.children = true →
      namesNodupB ctx'.children = true ∧ allTasksB nodupChildrenB ctx'.children = true := by
  induction p with
  | nil => intro ctx ctx' h _ _; exact absurd h (by simp [resolve])
  | cons n rest ih =>
    intro ctx ctx' h hnd hall
    rw [resolve] at h
    split at h
    · exact absurd h (by simp)
    · rename_i child hc
      have hchild : nodupChildrenB child = true ∧ allTasksB nodupChildrenB child.children = true := by
        rcases childFor_ok ctx n child hc with hfound | ⟨_, ch, tl, hdata, rfl⟩
        · exact allTasksB_of_find _ _ _ _ hall hfound
        · exact ⟨by simp [nodupChildrenB, Task.children_mk, namesNodupB],
            by simp [Task.children_mk, allTasksB_nil]⟩
      split at h
      · cases h
        rw [Task.withChildren_children]
        constructor
        · exact namesNodupB_setChild _ _ hnd
        · refine allTasksB_setChild _ _ _ hall ?_ ?_
          · show namesNodupB (Task.withSource (some src) child).children = true
            rw [Task.withSource_children]
            exact hchild.1
          · rw [Task.withSource_children]
            exact hchild.2
      · split at h
        · exact absurd h (by simp)
        · rename_i child' hr
          cases h
          rw [Task.withChildren_children]
          have hrec := ih child child' hr hchild.1 hchild.2
          constructor
          · exact namesNodupB_setChild _ _ hnd
          · exact allTasksB_setChild _ _ _ hall hrec.1 hrec.2

theorem createFrom_preserves_nodup :
    ∀ (fs : List SrcFile) (t t' : Task), createFrom fs t = .ok t' →
      namesNodupB t.children = true →
      allTasksB nodupChildrenB t.children = true →
      namesNodupB t'.children = true ∧ allTasksB nodupChildrenB t'.children = true := by
  intro fs
  induction fs with
  | nil =>
    intro t t' h hnd hall
    cases h
    exact ⟨hnd, hall⟩
  | cons f fs ih =>
    intro t t' h hnd hall
    rw [createFrom] at h
    split at h
    · exact absurd h (by simp)
    · rename_i t₁ hres
      have := resolve_preserves_nodup f (segments f) t t₁ hres hnd hall
      exact ih t₁ t' h this.1 this.2

/-! ## Claim C6: source assignment -/

theorem sourceAt_nil (t : Task) : sourceAt [] t = t.source := rfl

theorem sourceAt_cons (m : String) (qs : List String) (t : Task) :
    sourceAt (m :: qs) t =
      (match findChild t.children m with
       | some c => sourceAt qs c
       | none => none) := by
  rcases h : findChild t.children m with _ | c <;> simp [sourceAt, lookupPath, h]

theorem sourceAt_cons_withSource (m : String) (qs : List String) (t : Task) (s : Option SrcFile) :
    sourceAt (m :: qs) (t.withSource s) = sourceAt (m :: qs) t := by
  rw [sourceAt_cons, sourceAt_cons, Task.withSource_children]

/-- After `resolve` succeeds, the task at the resolved segment path holds
the processed file as its `source` (tasks.py line 46). -/
theorem resolve_sourceAt_self (src : SrcFile) (p : List String) :
    ∀ ctx ctx' : Task, resolve src p ctx = .ok ctx' → sourceAt p ctx' = some src := by
  induction p with
  | nil => intro ctx ctx' h; exact absurd h (by simp [resolve])
  | cons n rest ih =>
    intro ctx ctx' h
    rw [resolve] at h
    split at h
    · exact absurd h (by simp)
    · rename_i child hc
      have hname : child.name = n := childFor_ok_name ctx n child hc
      split at h
      · cases h
        rw [sourceAt_cons, Task.withChildren_children,
          findChild_setChild_self _ _ _ (by rw [Task.withSource_name, hname])]
        show sourceAt [] (Task.withSource (some src) child) = some src
        rw [sourceAt_nil, Task.withSource_source]
      · split at h
        · exact absurd h (by simp)
        · rename_i child' hr
          cases h
          rw [sourceAt_cons, Task.withChildren_children,
            findChild_setChild_self _ _ _ (((resolve_ok_fields src _ _ _ hr).1).trans hname)]
          exact ih child child' hr

/-- Resolving one file touches the `source` of no other segment path: a
path different from the file's own keeps its previous `source` (possibly
none). -/
theorem resolve_sourceAt_other (src : SrcFile) (p : List String) :
    ∀ (ctx ctx' : Task) (q : List String), q ≠ p → resolve src p ctx = .ok ctx' →
      sourceAt q ctx' = sourceAt q ctx := by
  induction p with
  | nil => intro ctx ctx' q _ h; exact absurd h (by simp [resolve])
  | cons n rest ih =>
    intro ctx ctx' q hq h
    cases rest with
    | nil =>
      rw [resolve_cons_nil] at h
      split at h
      · exact absurd h (by simp)
      · rename_i child hc
        have hname : child.name = n := childFor_ok_name ctx n child hc
        cases h
        cases q with
        | nil => rw [sourceAt_nil, sourceAt_nil, Task.withChildren_source]
        | cons m qs =>
          by_cases hmn : m = n
          · subst hmn
            have hqs : qs ≠ [] := by
              intro hcon
              exact hq (by rw [hcon])
            rw [sourceAt_cons, Task.withChildren_children,
              findChild_setChild_self _ _ _ (by rw [Task.withSource_name, hname])]
            cases qs with
            | nil => exact absurd rfl hqs
            | cons a as =>
              show sourceAt (a :: as) (Task.withSource (some src) child) = sourceAt (m :: a :: as) ctx
              rw [sourceAt_cons_withSource]
              rcases childFor_ok ctx m child hc with hfound | ⟨hnone, ch, tl, hdata, hfresh⟩
              · rw [sourceAt_cons m (a :: as) ctx, hfound]
              · rw [sourceAt_cons m (a :: as) ctx, hnone, hfresh, sourceAt_cons,
                  Task.children_mk, findChild, List.find?_nil]
          · rw [sourceAt_cons, Task.withChildren_children,
              findChild_setChild_other _ _ _
                (by rw [Task.withSource_name, hname]; exact fun hh => hmn hh.symm),
              sourceAt_cons]
    | cons r rs =>
      rw [resolve_cons_cons] at h
      split at h
      · exact absurd h (by simp)
      · rename_i child hc
        have hname : child.name = n := childFor_ok_name ctx n child hc
        split at h
        · exact absurd h (by simp)
        · rename_i child' hr
          cases h
          have hname' : child'.name = n := ((resolve_ok_fields src _ _ _ hr).1).trans hname
          cases q with
          | nil => rw [sourceAt_nil, sourceAt_nil, Task.withChildren_source]
          | cons m qs =>
            by_cases hmn : m = n
            · subst hmn
              have hqs : qs ≠ r :: rs := by
                intro hcon
                exact hq (by rw [hcon])
              rw [sourceAt_cons, Task.withChildren_children,
                findChild_setChild_self _ _ _ hname']
              show sourceAt qs child' = sourceAt (m :: qs) ctx
              rw [ih child child' qs hqs hr]
              rcases childFor_ok ctx m child hc with hfound | ⟨hnone, ch, tl, hdata, hfresh⟩
              · rw [sourceAt_cons m qs ctx, hfound]
              · rw [sourceAt_cons m qs ctx, hnone, hfresh]
                cases qs with
                | nil => rw [sourceAt_nil, Task.source_mk]
                | cons a as =>
                  rw [sourceAt_cons, Task.children_mk, findChild, List.find?_nil]
            · rw [sourceAt_cons, Task.withChildren_children,
                findChild_setChild_other _ _ _ (by rw [hname']; exact fun hh => hmn hh.symm),
                sourceAt_cons]

theorem createFrom_sourceAt_untouched :
    ∀ (fs : List SrcFile) (t t' : Task) (q : List String), createFrom fs t = .ok t' →
      (∀ g ∈ fs, segments g ≠ q) → sourceAt q t' = sourceAt q t := by
  intro fs
  induction fs with
  | nil =>
    intro t t' q h _
    cases h
    rfl
  | cons f fs ih =>
    intro t t' q h hne
    rw [createFrom] at h
    split at h
    · exact absurd h (by simp)
    · rename_i t₁ hres
      rw [ih t₁ t' q h (fun g hg => hne g (List.mem_cons_of_mem _ hg))]
      exact resolve_sourceAt_other f (segments f) t t₁ q
        (fun hqp => hne f (List.mem_cons_self _ _) hqp.symm) hres

/-- When all processed files have pairwise distinct segment paths, each
file ends up as the `source` of the task at its own path. -/
theorem createFrom_source_assigned :
    ∀ (fs : List SrcFile) (t t' : Task), createFrom fs t = .ok t' →
      List.Pairwise (fun a b => segments a ≠ segments b) fs →
      ∀ f ∈ fs, sourceAt (segments f) t' = some f := by
  intro fs
  induction fs with
  | nil => intro t t' _ _ f hf; exact absurd hf (List.not_mem_nil f)
  | cons g fs ih =>
    intro t t' h hpw f hf
    rw [createFrom] at h
    split at h
    · exact absurd h (by simp)
    · rename_i t₁ hres
      rw [List.pairwise_cons] at hpw
      rcases List.mem_cons.mp hf with rfl | hf'
      · rw [createFrom_sourceAt_untouched fs t₁ t' (segments f) h
          (fun x hx hxe => hpw.1 x hx hxe.symm)]
        exact resolve_sourceAt_self f (segments f) t t₁ hres
      · exact ih t₁ t' h hpw.2 f hf'

/-! ## Claim C10: malformed file names abort the build -/

/-- A segment path is malformed when it is empty (`assert count > 0`
fails) or contains an empty segment (`name[0]` raises `IndexError`). -/
def badSegB (p : List String) : Bool := p.isEmpty || p.any (fun s => s == "")

/-- A file whose derived dotted path is malformed. -/
def badFileB (f : SrcFile) : Bool := badSegB (segments f)

theorem allTasksB_forall_mem (p : Task → Bool) (cs : List Task) (h : allTasksB p cs = true) :
    ∀ c ∈ cs, p c = true := by
  induction cs with
  | nil => intro c hc; exact absurd hc (List.not_mem_nil c)
  | cons d ds ih =>
    rw [allTasksB_cons] at h
    simp only [Bool.and_eq_true] at h
    intro c hc
    rcases List.mem_cons.mp hc with rfl | hc'
    · exact h.1.1
    · exact ih h.2 c hc'

theorem variantNameOkB_name_ne (t : Task) (h : variantNameOkB t = true) : t.name ≠ "" := by
  intro hn
  rw [variantNameOkB, hn] at h
  exact absurd h (by simp)

theorem findChild_empty_of_ok (cs : List Task) (hall : allTasksB variantNameOkB cs = true) :
    findChild cs "" = none := by
  rw [findChild, List.find?_eq_none]
  intro c hc
  have := variantNameOkB_name_ne c (allTasksB_forall_mem _ _ hall c hc)
  simpa using this

theorem eq_empty_of_data_eq_nil (s : String) (h : s.data = []) : s = "" := by
  cases s with
  | mk d =>
    have h' : d = [] := h
    rw [h']

theorem childFor_total (ctx : Task) (n : String) (hn : n ≠ "") :
    ∃ child, childFor ctx n = .ok child := by
  rcases hf : findChild ctx.children n with _ | c
  · rcases hd : n.data with _ | ⟨ch, tl⟩
    · exact absurd (eq_empty_of_data_eq_nil n hd) hn
    · by_cases hl : ch.isLower = true
      · exact ⟨_, by simp only [childFor, hf, hd, if_pos hl]; rfl⟩
      · exact ⟨_, by simp only [childFor, hf, hd, if_neg hl]; rfl⟩
  · exact ⟨c, by simp only [childFor, hf]⟩

theorem resolve_ok_of_good (src : SrcFile) :
    ∀ (p : List String) (ctx : Task), p ≠ [] → (∀ s ∈ p, s ≠ "") →
      ∃ ctx', resolve src p ctx = .ok ctx' := by
  intro p
  induction p with
  | nil => intro ctx hp _; exact absurd rfl hp
  | cons n rest ih =>
    intro ctx _ hs
    have hn : n ≠ "" := hs n (List.mem_cons_self _ _)
    obtain ⟨child, hc⟩ := childFor_total ctx n hn
    cases rest with
    | nil => exact ⟨_, by simp only [resolve_cons_nil, hc]; rfl⟩
    | cons r rs =>
      obtain ⟨child', hr⟩ := ih child (by simp) (fun s hsm => hs s (List.mem_cons_of_mem _ hsm))
      exact ⟨_, by simp only [resolve_cons_cons, hc, hr]; rfl⟩

theorem resolve_error_of_bad (src : SrcFile) :
    ∀ (p : List String) (ctx : Task), allTasksB variantNameOkB ctx.children = true →
      badSegB p = true → ∃ e, resolve src p ctx = .error e := by
  intro p
  induction p with
  | nil => intro ctx _ _; exact ⟨.assertErr, by rw [resolve]⟩
  | cons n rest ih =>
    intro ctx hall hbad
    by_cases hn : n = ""
    · subst hn
      have hcf : childFor ctx "" = .error .indexErr := by
        simp only [childFor, findChild_empty_of_ok ctx.children hall]
      cases rest with
      | nil => exact ⟨.indexErr, by simp only [resolve_cons_nil, hcf]⟩
      | cons r rs => exact ⟨.indexErr, by simp only [resolve_cons_cons, hcf]⟩
    · have hrest : rest.any (fun s => s == "") = true := by
        rw [badSegB] at hbad
        simp only [List.isEmpty_cons, Bool.false_or, List.any_cons, Bool.or_eq_true] at hbad
        rcases hbad with hbad | hbad
        · exact absurd (by simpa using hbad) hn
        · exact hbad
      cases rest with
      | nil => exact absurd hrest (by simp)
      | cons r rs =>
        have hbadrest : badSegB (r :: rs) = true := by
          rw [badSegB, hrest]
          simp
        obtain ⟨child, hc⟩ := childFor_total ctx n hn
        have hchildinv : allTasksB variantNameOkB child.children = true := by
          rcases childFor_ok ctx n child hc with hfound | ⟨_, ch, tl, hdata, rfl⟩
          · exact (allTasksB_of_find _ _ _ _ hall hfound).2
          · simp [Task.children_mk, allTasksB_nil]
        obtain ⟨e, hr⟩ := ih child hchildinv hbadrest
        exact ⟨e, by simp only [resolve_cons_cons, hc, hr]⟩

theorem createFrom_error_of_bad :
    ∀ (fs : List SrcFile) (t : Task), allTasksB variantNameOkB t.children = true →
      (∃ f ∈ fs, badFileB f = true) → ∃ e, createFrom fs t = .error e := by
  intro fs
  induction fs with
  | nil =>
    intro t _ hbad
    obtain ⟨f, hf, _⟩ := hbad
    exact absurd hf (List.not_mem_nil f)
  | cons g fs ih =>
    intro t hall hbad
    by_cases hg : badFileB g = true
    · obtain ⟨e, he⟩ := resolve_error_of_bad g (segments g) t hall hg
      exact ⟨e, by simp only [createFrom, he]⟩
    · have hgood : segments g ≠ [] ∧ ∀ s ∈ segments g, s ≠ "" := by
        rw [badFileB, badSegB] at hg
        simp only [Bool.or_eq_true, List.isEmpty_eq_true, List.any_eq_true, not_or] at hg
        push_neg at hg
        exact ⟨hg.1, fun s hsm hse => hg.2 s hsm (by simp [hse])⟩
      obtain ⟨t₁, ht₁⟩ := resolve_ok_of_good g (segments g) t hgood.1 hgood.2
      have hbad' : ∃ f ∈ fs, badFileB f = true := by
        obtain ⟨f, hf, hfb⟩ := hbad
        rcases List.mem_cons.mp hf with rfl | hf'
        · exact absurd hfb hg
        · exact ⟨f, hf', hfb⟩
      obtain ⟨e, he⟩ :=
        ih t₁ (resolve_preserves_variantOk g (segments g) t t₁ ht₁ hall) hbad'
      exact ⟨e, by simp only [createFrom, ht₁, he]⟩

/-! ## Claim C5: ModuleTask.target_path (tasks.py lines 172-181) -/

/-- An output location: directory components and a file name. `Path(dest_dir,
"/".join(...))` is modelled as list concatenation; `.resolve()` only
absolutizes and is dropped. -/
@[ext]
structure FsPath where
  dirs : List String
  file : String
deriving DecidableEq, Repr

/-- The dotted chain `self.full_name.split(".")`. -/
def splitFullName (t : Task) : List String :=
  (splitCh '.' t.fullName.data).map String.mk

theorem splitCh_ne_nil (sep : Char) (l : List Char) : splitCh sep l ≠ [] := by
  cases l with
  | nil => simp [splitCh]
  | cons a as =>
    rw [splitCh]
    by_cases h : (a == sep) = true
    · rw [if_pos h]
      simp
    · rw [if_neg h]
      rcases hs : splitCh sep as with _ | ⟨g, gs⟩
      · simp
      · simp

theorem splitFullName_ne_nil (t : Task) : splitFullName t ≠ [] := by
  rw [splitFullName]
  intro h
  exact splitCh_ne_nil '.' t.fullName.data (List.map_eq_nil_iff.mp h)

/-- `any(filter(lambda c: isinstance(c, ModuleTask), self.values()))`
(tasks.py line 174). -/
def hasSubmoduleB (t : Task) : Bool :=
  t.children.any (fun c => c.variant == TaskVariant.moduleTask)

/-- `ModuleTask.target_path` (tasks.py lines 172-181). `top_level` is
`not any(self.ancestors)`; since `Task.__bool__` always returns `True`
(line 103), this is exactly "the task has no parent", passed here as the
`hasParent` flag because the embedded tree stores no parent pointers. -/
def target_path (destDir : List String) (hasParent : Bool) (t : Task) : FsPath :=
  let top_level := !hasParent
  if top_level || hasSubmoduleB t then
    ⟨destDir ++ splitFullName t, "__init__.pyi"⟩
  else
    ⟨destDir ++ (splitFullName t).dropLast, t.name ++ ".pyi"⟩

/-! ## Claim C4: submodule import insertion in ModuleTask.parse
(tasks.py lines 164-168) -/

/-- A direct child of a document Module node, as far as the merge step
needs to distinguish them. -/
inductive MNode where
  | docstringNode
  | importNode (module : String) (types : String)
  | classNode (name : String)
  | functionNode (name : String)
deriving DecidableEq, Repr

/-- A document Module node: its name and ordered children. -/
structure MModule where
  name : String
  children : List MNode
deriving DecidableEq, Repr

/-- Modelled from the spec: the `docstring` property of the Module node
lives in nodes.py, which is not part of the sources here. Per spec §4.3
the submodule imports go "immediately after the Module's own docstring
node if present, otherwise as the first child", and the merge code turns
that into the fixed index 1 versus 0 — so the docstring, when present, is
the module's first child. -/
def MModule.docstringB (m : MModule) : Bool :=
  match m.children with
  | .docstringNode :: _ => true
  | _ => false

/-- `index = 1 if module.docstring else 0` (tasks.py line 164). -/
def importIndex (m : MModule) : Nat := if m.docstringB then 1 else 0

/-- Strip a literal leading pattern from a character list. -/
def dropPre : List Char → List Char → Option (List Char)
  | [], cs => some cs
  | _ :: _, [] => none
  | p :: ps, c :: cs => if p == c then dropPre ps cs else none

/-- Modelled from the spec: `Module.localise_name` of nodes.py is not in
the sources; per the spec (§4.3, glossary "Localization") the submodule is
referenced by its localized name, i.e. with the enclosing module's own
dotted qualifier removed. -/
def localise_name (moduleName sub : String) : String :=
  match dropPre (moduleName ++ ".").data sub.data with
  | some rest => String.mk rest
  | none => sub

/-- The Import node synthesized for one submodule:
`Import(module=".", types=module.localise_name(node.name))` (line 168). -/
def subImport (moduleName sub : String) : MNode :=
  .importNode "." (localise_name moduleName sub)

/-- The submodule loop of `ModuleTask.parse` (tasks.py lines 164-168):
each submodule's Module-node name, in child enumeration order, yields an
Import inserted at the fixed `index`. `List.insertIdx` agrees with
Python's `list.insert` here because the index (0 or 1) never exceeds the
list length: index 1 is only used when a docstring occupies position 0. -/
def insertSubmoduleImports (m : MModule) (subNames : List String) : MModule :=
  let index := importIndex m
  { m with children :=
      subNames.foldl (fun cs sub => cs.insertIdx index (subImport m.name sub)) m.children }

theorem insertIdx_at_length (A B : List MNode) (x : MNode) :
    (A ++ B).insertIdx A.length x = A ++ x :: B := by
  induction A with
  | nil => rfl
  | cons a A ih =>
    rw [List.cons_append, List.length_cons, List.insertIdx_succ_cons, ih, List.cons_append]

theorem foldl_insertIdx_block (g : String → MNode) (subs : List String) :
    ∀ (idx : Nat) (A B : List MNode), A.length = idx →
      subs.foldl (fun cs sub => cs.insertIdx idx (g sub)) (A ++ B) =
        A ++ (subs.reverse.map g ++ B) := by
  induction subs with
  | nil => intro idx A B _; simp
  | cons sub ss ih =>
    intro idx A B hA
    rw [List.foldl_cons]
    have hstep : (A ++ B).insertIdx idx (g sub) = A ++ g sub :: B := by
      rw [← hA, insertIdx_at_length]
    rw [hstep, ih idx A (g sub :: B) hA]
    simp

/-- C4 as amended: the synthesized submodule imports (module ".", the
submodule's localized name) land as one contiguous block at the fixed
index — immediately after the docstring when there is one, else at the
very start — but in reverse child-enumeration order, because each
insertion at the same fixed index pushes the previously inserted imports
one slot to the right. -/
theorem insertSubmoduleImports_spec (m : MModule) (subNames : List String) :
    (insertSubmoduleImports m subNames).children =
      m.children.take (importIndex m) ++
        (subNames.reverse.map (subImport m.name) ++ m.children.drop (importIndex m)) := by
  have hlen : (m.children.take (importIndex m)).length = importIndex m := by
    rw [List.length_take, importIndex]
    by_cases hd : m.docstringB = true
    · rw [if_pos hd]
      rw [MModule.docstringB] at hd
      rcases hc : m.children with _ | ⟨c, cs⟩
      · rw [hc] at hd
        simp at hd
      · simp [hc]
    · rw [if_neg hd]
      simp
  show subNames.foldl (fun cs sub => cs.insertIdx (importIndex m) (subImport m.name sub))
      m.children = _
  conv_lhs => rw [← List.take_append_drop (importIndex m) m.children]
  exact foldl_insertIdx_block (subImport m.name) subNames (importIndex m) _ _ hlen

/-! ## Claim C9: module extraction in ModuleTask.parse
(tasks.py lines 143-152) -/

/-- A top-level node of a parsed fragment document, as far as
`doctree.traverse(Module)` needs to distinguish them. -/
inductive DocNode where
  | moduleNode (name : String)
  | otherNode (tag : String)
deriving DecidableEq, Repr

/-- `next(iter(doctree.traverse(Module)))`: the first Module node in
document order, when one exists. -/
def firstModuleName? : List DocNode → Option String
  | [] => none
  | .moduleNode n :: _ => some n
  | .otherNode _ :: rest => firstModuleName? rest

/-- Outcome of the doctree-selection prefix of `ModuleTask.parse`: either
the document (with the name of the Module node the merge will target), or
the `StopIteration` escape from `next` on an empty traversal. -/
inductive ParseOutcome where
  | done (docChildren : List DocNode) (moduleName : String)
  | stopIteration
deriving DecidableEq, Repr

/-- Lines 143-152 of `ModuleTask.parse`: `parsed` is the result of
`ParserTask.parse`, which is `None` exactly when the task has no source
(lines 115-134). docutils `Node.__bool__` returns `True` unconditionally
("Node instances are always true, even if they're empty"), so
`if not doctree:` holds exactly when `parse` returned `None`; only then is
a fresh document with an empty `Module(name=self.name)` substituted.
`next(iter(doctree.traverse(Module)))` then raises `StopIteration` when
the document holds no Module node at all. -/
def moduleTaskSelect (taskName : String) (parsed : Option (List DocNode)) : ParseOutcome :=
  let doctree :=
    match parsed with
    | none => [DocNode.moduleNode taskName]
    | some cs => cs
  match firstModuleName? doctree with
  | some n => .done doctree n
  | none => .stopIteration

/-! ## Claims C2 and C3: signature rendering and type localization

The Function/Argument node model and its rendering live in nodes.py, which
is not among the sources here; the definitions below are modelled from the
spec (§3 data model, §4.4 localization, §4.5 signature rendering) and
checked against the expectations recorded in src/tests/test_function.py. -/

/-- Modelled from the spec: `FunctionScope` of nodes.py (§3, §4.5). -/
inductive FunctionScope where
  | Module
  | Instance
  | Class
  | Static
deriving DecidableEq, Repr

/-- Modelled from the spec: an Argument node — `name`, optional `type`
expression, optional `default` literal source text (§3). -/
structure Argument where
  name : String
  type : Option String := none
  default : Option String := none
deriving DecidableEq, Repr

/-- Modelled from the spec: a Function node — `name`, optional return
`type`, `scope`, ordered arguments (§3). -/
structure Function where
  name : String
  type : Option String := none
  scope : FunctionScope := .Module
  arguments : List Argument := []
deriving DecidableEq, Repr

/-- Modelled from the spec: one rendered argument, `name: type` with the
universal any-token `typing.Any` for an unset type, plus ` = default`
with the default's literal text verbatim (§4.5). Authored type
expressions pass through the enclosing resolver. -/
def renderArg (resolveType : String → String) (a : Argument) : String :=
  a.name ++ ": " ++
    (match a.type with
     | some t => resolveType t
     | none => "typing.Any") ++
    (match a.default with
     | some d => " = " ++ d
     | none => "")

/-- Modelled from the spec: the rendered declaration of a Function node
(§4.5) — decorator line by scope, implicit leading parameter by scope,
`def <name>(<args>) -> <returnType>:` with the no-value token `None` for
an unset return type. -/
def signatureWith (resolveType : String → String) (f : Function) : String :=
  let deco :=
    match f.scope with
    | .Class => "@classmethod\n"
    | .Static => "@staticmethod\n"
    | _ => ""
  let lead : List String :=
    match f.scope with
    | .Instance => ["self"]
    | .Class => ["cls"]
    | _ => []
  let rtype :=
    match f.type with
    | some t => resolveType t
    | none => "None"
  deco ++ "def " ++ f.name ++ "(" ++
    String.intercalate ", " (lead ++ f.arguments.map (renderArg resolveType)) ++
    ") -> " ++ rtype ++ ":"

/-- Modelled from the spec: `Function.signature` outside any module
context — no localization applies. -/
def Function.signature (f : Function) : String := signatureWith id f

/-- Modelled from the spec: type localization (§4.4) — a reference of the
exact form `"<module-name>.<ClassName>"` whose class name is locally
defined is rewritten to the bare class name; every other expression is
left untouched. -/
def localise (moduleName : String) (localClasses : List String) (t : String) : String :=
  match localClasses.find? (fun c => t == moduleName ++ "." ++ c) with
  | some c => c
  | none => t

/-- Modelled from the spec: rendering a Function that sits inside a Module
with the given name and locally defined class names — signature rendering
reflects the localization of §4.4 (spec §4.5, last bullet). -/
def signatureInModule (moduleName : String) (localClasses : List String) (f : Function) :
    String :=
  signatureWith (localise moduleName localClasses) f

theorem string_append_left_cancel (a b c : String) (h : a ++ b = a ++ c) : b = c := by
  have hd : (a ++ b).data = (a ++ c).data := by rw [h]
  rw [String.data_append, String.data_append] at hd
  have hbc := List.append_cancel_left hd
  cases b; cases c
  exact congrArg String.mk hbc

/-- A locally defined class referenced through the module's own name is
rewritten to its bare name. -/
theorem localise_local (mod C : String) (ls : List String) (hC : C ∈ ls) :
    localise mod ls (mod ++ "." ++ C) = C := by
  rcases hf : ls.find? (fun c => (mod ++ "." ++ C) == mod ++ "." ++ c) with _ | c
  · rw [List.find?_eq_none] at hf
    exact absurd (by simp) (hf C hC)
  · have hc := List.find?_some hf
    have heq : mod ++ "." ++ C = mod ++ "." ++ c := by simpa using hc
    have hCc : C = c := string_append_left_cancel (mod ++ ".") C c heq
    simp only [localise, hf]
    exact hCc.symm

/-- Any expression that is not of the exact form
`<module-name>.<locally-defined-class>` is left untouched. -/
theorem localise_other (mod t : String) (ls : List String)
    (ht : ∀ c ∈ ls, t ≠ mod ++ "." ++ c) : localise mod ls t = t := by
  rcases hf : ls.find? (fun c => t == mod ++ "." ++ c) with _ | c
  · simp only [localise, hf]
  · have hc := List.find?_some hf
    have hmem := List.mem_of_find?_eq_some hf
    exact absurd (by simpa using hc) (ht c hmem)

/-! ## Claim theorems -/

/-- C1: every task `Task.create` builds has a non-empty name and the
variant dictated by its name's first character — `ModuleTask` for a
lowercase first character, `ClassTask` for any other — and the variant of
a task already in the tree is never changed by resolving further files
through it: the variant is fixed at creation. -/
theorem create_variant_determined_by_casing (files : List SrcFile) (t : Task)
    (h : create files = .ok t) :
    allTasksB variantNameOkB t.children = true ∧
      (∀ (src : SrcFile) (p : List String) (t' : Task) (q : List String) (v : TaskVariant),
        resolve src p t = .ok t' → variantAt q t = some v → variantAt q t' = some v) := by
  rw [create] at h
  exact ⟨createFrom_preserves_variantOk (sortFiles files) rootTask t h (allTasksB_nil _),
    fun src p t' q v hr hq => resolve_preserves_variantAt src p t t' q v hr hq⟩

/-- Witness for C1 on a concrete build: the tree for `bge.rst` satisfies
the casing rule, and resolving a further file leaves the existing `bge`
task a `ModuleTask`. -/
theorem create_variant_determined_by_casing_witness :
    allTasksB variantNameOkB (Task.mk "" "" .root none
        [Task.mk "bge" "bge" .moduleTask (some ⟨[], "bge.rst"⟩) []]).children = true ∧
      variantAt ["bge"] (Task.mk "" "" .root none
        [Task.mk "bge" "bge" .moduleTask (some ⟨[], "bge.rst"⟩) [],
         Task.mk "x" "x" .moduleTask (some ⟨[], "x.rst"⟩) []]) = some .moduleTask := by
  have h := create_variant_determined_by_casing [⟨[], "bge.rst"⟩]
    (Task.mk "" "" .root none [Task.mk "bge" "bge" .moduleTask (some ⟨[], "bge.rst"⟩) []]) rfl
  exact ⟨h.1, h.2 ⟨[], "x.rst"⟩ ["x"]
    (Task.mk "" "" .root none
      [Task.mk "bge" "bge" .moduleTask (some ⟨[], "bge.rst"⟩) [],
       Task.mk "x" "x" .moduleTask (some ⟨[], "x.rst"⟩) []])
    ["bge"] .moduleTask rfl rfl⟩

/-- C7: in every tree `Task.create` builds, no parent holds two children
with the same name — re-encountering a segment reuses the existing child
instead of creating a duplicate. -/
theorem create_child_names_unique (files : List SrcFile) (t : Task)
    (h : create files = .ok t) : nodupTreeB t = true := by
  rw [create] at h
  have hres := createFrom_preserves_nodup (sortFiles files) rootTask t h rfl (allTasksB_nil _)
  rw [nodupTreeB, nodupChildrenB, Bool.and_eq_true]
  exact ⟨hres.1, hres.2⟩

/-- Witness for C7 on a concrete build with a shared prefix. -/
theorem create_child_names_unique_witness :
    nodupTreeB (Task.mk "" "" .root none
      [Task.mk "bge" "bge" .moduleTask none
        [Task.mk "logic" "bge.logic" .moduleTask (some ⟨[], "bge.logic.rst"⟩) []]]) = true :=
  create_child_names_unique [⟨[], "bge.logic.rst"⟩]
    (Task.mk "" "" .root none
      [Task.mk "bge" "bge" .moduleTask none
        [Task.mk "logic" "bge.logic" .moduleTask (some ⟨[], "bge.logic.rst"⟩) []]]) rfl

/-- C8: `Task.create` is a function of the set of discovered files — any
two enumeration orders of the same files (and in particular two runs on
the same list) produce identical trees: same names, variants, full names
and source assignment, since the whole `Task` value coincides. -/
theorem create_deterministic (l₁ l₂ : List SrcFile) (h : l₁.Perm l₂) :
    create l₁ = create l₂ := by
  rw [create, create, sortFiles_eq_of_perm l₁ l₂ h]

/-- Witness for C8: two enumeration orders of the same two files. -/
theorem create_deterministic_witness :
    ([⟨[], "bge.rst"⟩, ⟨[], "mathutils.rst"⟩] : List SrcFile).Perm
        [⟨[], "mathutils.rst"⟩, ⟨[], "bge.rst"⟩] ∧
      create [⟨[], "bge.rst"⟩, ⟨[], "mathutils.rst"⟩] =
        create [⟨[], "mathutils.rst"⟩, ⟨[], "bge.rst"⟩] :=
  ⟨by decide, create_deterministic _ _ (by decide)⟩

/-- C5: `target_path` yields the `__init__`-style package path — directory
the full dotted chain, file `__init__.pyi` — exactly when the task has no
parent or has at least one `ModuleTask` child, and otherwise the leaf path
— directory the chain minus its last segment, file `<name>.pyi`. -/
theorem target_path_package_iff (destDir : List String) (hasParent : Bool) (t : Task) :
    (target_path destDir hasParent t =
        ⟨destDir ++ splitFullName t, "__init__.pyi"⟩ ↔
      (hasParent = false ∨ hasSubmoduleB t = true)) ∧
    (target_path destDir hasParent t =
        ⟨destDir ++ (splitFullName t).dropLast, t.name ++ ".pyi"⟩ ↔
      ¬(hasParent = false ∨ hasSubmoduleB t = true)) := by
  have hne : (⟨destDir ++ splitFullName t, "__init__.pyi"⟩ : FsPath) ≠
      ⟨destDir ++ (splitFullName t).dropLast, t.name ++ ".pyi"⟩ := by
    intro heq
    have hd := congrArg FsPath.dirs heq
    simp only at hd
    have hcancel := List.append_cancel_left hd
    have hlen := congrArg List.length hcancel
    rw [List.length_dropLast] at hlen
    have hpos : 0 < (splitFullName t).length :=
      List.length_pos.mpr (splitFullName_ne_nil t)
    omega
  have hcond : ((!hasParent || hasSubmoduleB t) = true) ↔
      (hasParent = false ∨ hasSubmoduleB t = true) := by
    rw [Bool.or_eq_true, Bool.not_eq_true']
  by_cases hc : (!hasParent || hasSubmoduleB t) = true
  · have hres : target_path destDir hasParent t =
        ⟨destDir ++ splitFullName t, "__init__.pyi"⟩ := by
      rw [target_path]
      simp only [hc, if_true]
    refine ⟨⟨fun _ => hcond.mp hc, fun _ => hres⟩, ?_, ?_⟩
    · intro h'
      rw [hres] at h'
      exact absurd h' hne
    · intro hn
      exact absurd (hcond.mp hc) hn
  · have hres : target_path destDir hasParent t =
        ⟨destDir ++ (splitFullName t).dropLast, t.name ++ ".pyi"⟩ := by
      rw [target_path]
      simp [Bool.eq_false_iff.mpr hc]
    refine ⟨⟨?_, ?_⟩, ⟨fun _ => fun hcc => hc (hcond.mpr hcc), fun _ => hres⟩⟩
    · intro h'
      rw [hres] at h'
      exact absurd h'.symm hne
    · intro hcc
      exact absurd (hcond.mpr hcc) hc

/-- C6 counterexample: two distinct files (same name, different
directories) derive the same segment path, resolve to the same task, and
the later one overwrites the task's `source` — so a `source` is not
assigned exactly once in every run. -/
theorem create_source_reassigned_counterexample :
    segments ⟨["a"], "foo.rst"⟩ = segments ⟨["b"], "foo.rst"⟩ ∧
      (⟨["a"], "foo.rst"⟩ : SrcFile) ≠ ⟨["b"], "foo.rst"⟩ ∧
      (match create [⟨["a"], "foo.rst"⟩, ⟨["b"], "foo.rst"⟩] with
       | .ok t => sourceAt ["foo"] t
       | .error _ => none) = some ⟨["b"], "foo.rst"⟩ ∧
      (match create [⟨["a"], "foo.rst"⟩] with
       | .ok t => sourceAt ["foo"] t
       | .error _ => none) = some ⟨["a"], "foo.rst"⟩ :=
  ⟨rfl, by decide, rfl, rfl⟩

/-- C6 as amended: when the processed files' derived segment paths are
pairwise distinct, each task's `source` is assigned exactly once — the
task at each file's path ends the run owning exactly that file; in
general the task's `source` ends as the last file (in sorted order) whose
segment path resolves to it. -/
theorem create_source_assigned_once (files : List SrcFile) (t : Task)
    (h : create files = .ok t) (hnd : (files.map segments).Nodup) :
    ∀ f ∈ files, sourceAt (segments f) t = some f := by
  rw [create] at h
  have hpw : List.Pairwise (fun a b => segments a ≠ segments b) files :=
    List.pairwise_map.mp hnd
  have hpw' : List.Pairwise (fun a b => segments a ≠ segments b) (sortFiles files) :=
    ((sortFiles_perm files).pairwise_iff (fun hab => hab ∘ Eq.symm)).mpr hpw
  intro f hf
  exact createFrom_source_assigned (sortFiles files) rootTask t h hpw' f
    ((sortFiles_perm files).mem_iff.mpr hf)

/-- Witness for the amended C6 on two files with distinct paths. -/
theorem create_source_assigned_once_witness :
    (([⟨[], "bge.rst"⟩, ⟨[], "mathutils.rst"⟩] : List SrcFile).map segments).Nodup ∧
      sourceAt ["bge"] (Task.mk "" "" .root none
        [Task.mk "bge" "bge" .moduleTask (some ⟨[], "bge.rst"⟩) [],
         Task.mk "mathutils" "mathutils" .moduleTask (some ⟨[], "mathutils.rst"⟩) []]) =
        some ⟨[], "bge.rst"⟩ :=
  ⟨by decide,
    create_source_assigned_once [⟨[], "bge.rst"⟩, ⟨[], "mathutils.rst"⟩]
      (Task.mk "" "" .root none
        [Task.mk "bge" "bge" .moduleTask (some ⟨[], "bge.rst"⟩) [],
         Task.mk "mathutils" "mathutils" .moduleTask (some ⟨[], "mathutils.rst"⟩) []])
      rfl (by decide) ⟨[], "bge.rst"⟩ (by decide)⟩

/-- C10: a discovered file whose name derives an empty segment list or an
empty segment makes the build abort with the corresponding exception —
`assert count > 0` for zero segments, `IndexError` from `name[0]` for an
empty segment — instead of producing a task for the file. -/
theorem create_aborts_on_malformed_names (files : List SrcFile)
    (h : ∃ f ∈ files, badFileB f = true) :
    (∃ e, create files = .error e) ∧
      create [⟨[], ".rst"⟩] = .error .indexErr ∧
      create [⟨[], "foo"⟩] = .error .assertErr := by
  refine ⟨?_, rfl, rfl⟩
  rw [create]
  apply createFrom_error_of_bad (sortFiles files) rootTask (allTasksB_nil _)
  obtain ⟨f, hf, hb⟩ := h
  exact ⟨f, (sortFiles_perm files).mem_iff.mpr hf, hb⟩

/-- Witness for C10 on the malformed name `.rst`. -/
theorem create_aborts_on_malformed_names_witness :
    (∃ f ∈ ([⟨[], ".rst"⟩] : List SrcFile), badFileB f = true) ∧
      (∃ e, create [⟨[], ".rst"⟩] = .error e) :=
  ⟨by decide, (create_aborts_on_malformed_names [⟨[], ".rst"⟩] (by decide)).1⟩

/-- C4 counterexample: with a docstring present and submodules enumerated
as `pkg.a` then `pkg.b`, the merge yields the imports in the order `b`,
`a` — not the enumeration order the claim states. -/
theorem submodule_import_order_counterexample :
    (insertSubmoduleImports ⟨"pkg", [.docstringNode]⟩ ["pkg.a", "pkg.b"]).children =
        [.docstringNode, .importNode "." "b", .importNode "." "a"] ∧
      [MNode.docstringNode, .importNode "." "b", .importNode "." "a"] ≠
        [MNode.docstringNode, .importNode "." "a", .importNode "." "b"] :=
  ⟨rfl, by decide⟩

/-- C3: the rendered signature is `def <name>(<args>) -> <returnType>:`
with `None` for an unset return type; scope Instance adds `self` and no
decorator, Class adds `cls` and `@classmethod`, Static adds
`@staticmethod` and no implicit parameter, Module adds neither; an
argument renders as `name: type` with `typing.Any` when untyped and
`name: type = default` with the default's literal text. The cases are
exactly those of `test_signature` in src/tests/test_function.py. -/
theorem function_signature_rendering :
    Function.signature ⟨"my_func", none, .Module, []⟩ = "def my_func() -> None:" ∧
    Function.signature ⟨"my_func", some "str", .Module, []⟩ = "def my_func() -> str:" ∧
    Function.signature ⟨"my_func", some "str", .Class, []⟩ =
      "@classmethod\ndef my_func(cls) -> str:" ∧
    Function.signature ⟨"my_func", some "str", .Instance, []⟩ = "def my_func(self) -> str:" ∧
    Function.signature ⟨"my_func", some "str", .Static, []⟩ =
      "@staticmethod\ndef my_func() -> str:" ∧
    Function.signature ⟨"my_func", some "str", .Module, [⟨"arg1", none, none⟩]⟩ =
      "def my_func(arg1: typing.Any) -> str:" ∧
    Function.signature ⟨"my_func", some "str", .Module,
        [⟨"arg1", some "int", none⟩, ⟨"arg2", some "str", some "None"⟩]⟩ =
      "def my_func(arg1: int, arg2: str = None) -> str:" :=
  ⟨rfl, rfl, rfl, rfl, rfl, rfl, rfl⟩

/-- C2: inside a Module, a type expression of the exact form
`<module-name>.<ClassName>` with `ClassName` locally defined renders as
the bare class name, while any expression not of that form is left fully
qualified; on the spec's concrete example the rendered signature strips
the local qualifier and keeps the external one. -/
theorem type_localization (mod C t : String) (ls : List String) (hC : C ∈ ls)
    (ht : ∀ c ∈ ls, t ≠ mod ++ "." ++ c) :
    localise mod ls (mod ++ "." ++ C) = C ∧ localise mod ls t = t ∧
      signatureInModule "mymodule" ["LocalClass1", "LocalClass2"]
        ⟨"my_func", some "mymodule.LocalClass1", .Module,
          [⟨"arg1", some "mymodule.LocalClass2", none⟩,
           ⟨"arg2", some "other.ExternalClass", none⟩]⟩ =
        "def my_func(arg1: LocalClass2, arg2: other.ExternalClass) -> LocalClass1:" :=
  ⟨localise_local mod C ls hC, localise_other mod t ls ht, rfl⟩

/-- Witness for C2 at the spec's concrete module. -/
theorem type_localization_witness :
    ("LocalClass1" ∈ ["LocalClass1", "LocalClass2"]) ∧
      (∀ c ∈ ["LocalClass1", "LocalClass2"],
        "other.ExternalClass" ≠ "mymodule" ++ "." ++ c) ∧
      localise "mymodule" ["LocalClass1", "LocalClass2"]
        ("mymodule" ++ "." ++ "LocalClass1") = "LocalClass1" :=
  ⟨by decide, by decide,
    (type_localization "mymodule" "LocalClass1" "other.ExternalClass"
      ["LocalClass1", "LocalClass2"] (by decide) (by decide)).1⟩

/-- Whether a document contains any Module node. -/
def containsModuleB (cs : List DocNode) : Bool :=
  cs.any (fun d =>
    match d with
    | .moduleNode _ => true
    | .otherNode _ => false)

theorem firstModuleName_eq_none (cs : List DocNode) (h : containsModuleB cs = false) :
    firstModuleName? cs = none := by
  induction cs with
  | nil => rfl
  | cons d ds ih =>
    rw [containsModuleB, List.any_cons, Bool.or_eq_false_iff] at h
    cases d with
    | moduleNode n => exact absurd h.1 (by simp)
    | otherNode tag =>
      rw [firstModuleName?]
      exact ih h.2

/-- C9: when the task has a source whose parsed doctree holds no Module
node, `ModuleTask.parse` escapes with `StopIteration` (from `next` of an
empty traversal) instead of returning a document — an empty doctree is
still truthy in docutils, so it is not replaced; only a task without any
source gets a synthesized document holding an empty Module bearing the
task's name. -/
theorem parse_requires_module_node (taskName : String) (cs : List DocNode)
    (h : containsModuleB cs = false) :
    moduleTaskSelect taskName (some cs) = .stopIteration ∧
      moduleTaskSelect taskName none = .done [.moduleNode taskName] taskName := by
  constructor
  · simp only [moduleTaskSelect, firstModuleName_eq_none cs h]
  · rfl

/-- Witness for C9 on a doctree holding a lone function directive. -/
theorem parse_requires_module_node_witness :
    containsModuleB [DocNode.otherNode "function"] = false ∧
      moduleTaskSelect "bge" (some [DocNode.otherNode "function"]) = .stopIteration :=
  ⟨by decide, (parse_requires_module_node "bge" [DocNode.otherNode "function"] (by decide)).1⟩

end Bpy
